import Mathlib

/-!
# Verification of the lua-avro binding (`src/avro/legacy/avro.c`)

A shallow embedding of the Lua binding for the Avro C library, together
with a model of the Avro binary wire format (§6 of the design document).
The binding code (`l_value_*` functions) is translated directly from
`src/avro/legacy/avro.c`; the Avro C library operations it calls
(`avro_value_write`, `avro_value_read`, `avro_value_sizeof`,
`avro_value_copy`, `avro_value_set_branch`, ...) are not part of this
repository's sources, so they are modelled from the specification's
description of the wire format and the value interface.

Machine strings (Lua strings, map keys, field and branch names) are byte
sequences, modelled as `List Nat` with bytes below 256.
-/

namespace LuaAvro

/-! ## Variable-length zig-zag integers (wire format §6)

`int`/`long`: zig-zag-encoded variable-length integer; each byte carries 7
payload bits low-to-high with the high bit set on all but the final byte. -/

/-- Zig-zag encoding of a signed integer into a natural number:
nonnegative `i` maps to `2*i`, negative `i` maps to `-2*i - 1`. -/
def zigzagEnc (i : Int) : Nat :=
  if 0 ≤ i then (2 * i).toNat else (-(2 * i) - 1).toNat

/-- Inverse of `zigzagEnc`. -/
def zigzagDec (n : Nat) : Int :=
  if n % 2 = 0 then ((n / 2 : Nat) : Int) else -((n / 2 : Nat) : Int) - 1

/-- Base-128 continuation-bit encoding of a natural number, little end first:
the low 7 bits of each byte are payload, the high bit marks continuation. -/
def varintEncode (n : Nat) : List Nat :=
  if h : n < 128 then [n]
  else (n % 128 + 128) :: varintEncode (n / 128)
termination_by n
decreasing_by
  exact Nat.div_lt_self (by omega) (by omega)

/-- Reads one base-128 varint from the front of a byte buffer. -/
def decodeVarint : List Nat → Option (Nat × List Nat)
  | [] => none
  | b :: rest =>
    if b < 128 then some (b, rest)
    else (decodeVarint rest).map (fun p => (p.1 * 128 + (b - 128), p.2))

/-- The wire encoding of an Avro `long` (and `int`): zig-zag then varint. -/
def encodeLong (i : Int) : List Nat := varintEncode (zigzagEnc i)

/-- Encoding of a nonnegative length / count / index. -/
def encodeLength (n : Nat) : List Nat := encodeLong (n : Int)

/-- Reads one Avro `long` from the front of a byte buffer. -/
def decodeLong (buf : List Nat) : Option (Int × List Nat) :=
  (decodeVarint buf).map (fun p => (zigzagDec p.1, p.2))

/-! ## Little-endian byte blocks (float/double bit patterns, §6) -/

/-- `w`-byte little-endian rendering of a natural number. -/
def natToLE : Nat → Nat → List Nat
  | 0, _ => []
  | w + 1, n => (n % 256) :: natToLE w (n / 256)

/-- Reads `w` little-endian bytes from the front of a buffer. -/
def decodeLE : Nat → List Nat → Option (Nat × List Nat)
  | 0, buf => some (0, buf)
  | _ + 1, [] => none
  | w + 1, b :: rest => (decodeLE w rest).map (fun p => (b + 256 * p.1, p.2))

/-! ## Length-prefixed byte blocks (`bytes`/`string` content, map keys) -/

/-- Reads an Avro `bytes`/`string` body: a `long` byte-count followed by that
many raw bytes.  Negative or overlong counts fail (`InvalidEncoding` /
`Truncated`). -/
def decodeBytesBody (buf : List Nat) : Option (List Nat × List Nat) :=
  (decodeLong buf).bind (fun p =>
    if p.1 < 0 then none
    else if p.1.toNat ≤ p.2.length then some (p.2.take p.1.toNat, p.2.drop p.1.toNat)
    else none)

/-! ## Schemas and generic values (§3 data model)

Schemas are immutable type trees: primitive scalars, `fixed(size)`,
`enum(symbols)`, `array(item)`, `map(value)`, `record(fields)` and
`union(branches)`.  Named links are transparent for the codec (§6: "encodes
exactly as its resolved target type"), so a schema tree here stands for the
link-resolved type.  Field and branch names, enum symbols and all Lua
strings are byte sequences (`List Nat`). -/

mutual

inductive AvroSchema where
  | snull
  | sboolean
  | sint
  | slong
  | sfloat
  | sdouble
  | sbytes
  | sstring
  | sfixed (size : Nat)
  | senum (symbols : List (List Nat))
  | sarray (item : AvroSchema)
  | smap (values : AvroSchema)
  | srecord (fields : AvroFields)
  | sunion (branches : AvroFields)
  deriving DecidableEq

inductive AvroFields where
  | nil
  | cons (name : List Nat) (s : AvroSchema) (tl : AvroFields)
  deriving DecidableEq

end

mutual

inductive AvroValue where
  | vnull
  | vboolean (b : Bool)
  | vint (i : Int)
  | vlong (i : Int)
  | vfloat (bits : Nat)
  | vdouble (bits : Nat)
  | vbytes (bs : List Nat)
  | vstring (bs : List Nat)
  | vfixed (bs : List Nat)
  | venum (idx : Nat)
  | varray (items : AvroValueList)
  | vmap (entries : AvroEntryList)
  | vrecord (fields : AvroValueList)
  | vunion (branch : Nat) (v : AvroValue)
  deriving DecidableEq

inductive AvroValueList where
  | nil
  | cons (v : AvroValue) (tl : AvroValueList)
  deriving DecidableEq

inductive AvroEntryList where
  | nil
  | cons (key : List Nat) (v : AvroValue) (tl : AvroEntryList)
  deriving DecidableEq

end

namespace AvroValueList

def length : AvroValueList → Nat
  | .nil => 0
  | .cons _ tl => length tl + 1

def append : AvroValueList → AvroValueList → AvroValueList
  | .nil, ys => ys
  | .cons v tl, ys => .cons v (append tl ys)

def getAt : AvroValueList → Nat → Option AvroValue
  | .nil, _ => none
  | .cons v _, 0 => some v
  | .cons _ tl, n + 1 => getAt tl n

def setAt : AvroValueList → Nat → AvroValue → AvroValueList
  | .nil, _, _ => .nil
  | .cons _ tl, 0, w => .cons w tl
  | .cons v tl, n + 1, w => .cons v (setAt tl n w)

def drop : AvroValueList → Nat → AvroValueList
  | .nil, _ => .nil
  | .cons v tl, 0 => .cons v tl
  | .cons _ tl, n + 1 => drop tl n

end AvroValueList

namespace AvroEntryList

def length : AvroEntryList → Nat
  | .nil => 0
  | .cons _ _ tl => length tl + 1

def append : AvroEntryList → AvroEntryList → AvroEntryList
  | .nil, ys => ys
  | .cons k v tl, ys => .cons k v (append tl ys)

/-- Position and value of the entry with the given key, if present. -/
def find : AvroEntryList → List Nat → Option (Nat × AvroValue)
  | .nil, _ => none
  | .cons k v tl, key =>
    if k = key then some (0, v)
    else (find tl key).map (fun p => (p.1 + 1, p.2))

/-- Replaces the value stored under an existing key. -/
def replace : AvroEntryList → List Nat → AvroValue → AvroEntryList
  | .nil, _, _ => .nil
  | .cons k v tl, key, w =>
    if k = key then .cons k w tl else .cons k v (replace tl key w)

end AvroEntryList

namespace AvroFields

def length : AvroFields → Nat
  | .nil => 0
  | .cons _ _ tl => length tl + 1

/-- Schema of the field/branch at a 0-based position. -/
def nthSchema : AvroFields → Nat → Option AvroSchema
  | .nil, _ => none
  | .cons _ s _, 0 => some s
  | .cons _ _ tl, n + 1 => nthSchema tl n

/-- 0-based position and schema of the field/branch with the given name
(`avro_schema_union_branch_by_name` / `avro_value_get_by_name`). -/
def findName : AvroFields → List Nat → Option (Nat × AvroSchema)
  | .nil, _ => none
  | .cons n s tl, name =>
    if n = name then some (0, s)
    else (findName tl name).map (fun p => (p.1 + 1, p.2))

end AvroFields

/-! ## Structural conformance of a value to a schema

A generic value created from a schema's value interface satisfies this
relation; it is the "value constructible from it" of the round-trip
property.  Byte contents are genuine bytes (< 256), `int` fits 32 bits,
`long` fits 64 bits, float/double bit patterns fit 32/64 bits, a fixed
value has the declared size, an enum index is within the symbol list, and
a union carries one in-range branch whose value conforms to that branch. -/

def bytesOk (bs : List Nat) : Bool := bs.all (fun b => b < 256)

mutual

def conforms : AvroValue → AvroSchema → Bool
  | .vnull, .snull => true
  | .vboolean _, .sboolean => true
  | .vint i, .sint => decide (-(2 ^ 31) ≤ i ∧ i < 2 ^ 31)
  | .vlong i, .slong => decide (-(2 ^ 63) ≤ i ∧ i < 2 ^ 63)
  | .vfloat bits, .sfloat => decide (bits < 2 ^ 32)
  | .vdouble bits, .sdouble => decide (bits < 2 ^ 64)
  | .vbytes bs, .sbytes => bytesOk bs
  | .vstring bs, .sstring => bytesOk bs
  | .vfixed bs, .sfixed size => bytesOk bs && decide (bs.length = size)
  | .venum idx, .senum symbols => decide (idx < symbols.length)
  | .varray items, .sarray item => conformsItems items item
  | .vmap entries, .smap values => conformsEntries entries values
  | .vrecord fields, .srecord sfields => conformsFields fields sfields
  | .vunion b v, .sunion branches =>
    match branches.nthSchema b with
    | some s => conforms v s
    | none => false
  | _, _ => false

def conformsItems : AvroValueList → AvroSchema → Bool
  | .nil, _ => true
  | .cons v tl, s => conforms v s && conformsItems tl s

def conformsEntries : AvroEntryList → AvroSchema → Bool
  | .nil, _ => true
  | .cons k v tl, s => bytesOk k && conforms v s && conformsEntries tl s

def conformsFields : AvroValueList → AvroFields → Bool
  | .nil, .nil => true
  | .cons v vtl, .cons _ s stl => conforms v s && conformsFields vtl stl
  | _, _ => false

end

/-! ## Binary encoding (wire format §6)

Modelled from the spec: the Avro C library's `avro_value_write` is not in
this repository's sources; §6 gives the bit-exact format. -/

mutual

def encodeValue : AvroValue → List Nat
  | .vnull => []
  | .vboolean b => [if b then 1 else 0]
  | .vint i => encodeLong i
  | .vlong i => encodeLong i
  | .vfloat bits => natToLE 4 bits
  | .vdouble bits => natToLE 8 bits
  | .vbytes bs => encodeLength bs.length ++ bs
  | .vstring bs => encodeLength bs.length ++ bs
  | .vfixed bs => bs
  | .venum idx => encodeLength idx
  | .varray items =>
    (if items = .nil then []
     else encodeLength items.length ++ encodeItems items) ++ encodeLength 0
  | .vmap entries =>
    (if entries = .nil then []
     else encodeLength entries.length ++ encodeEntries entries) ++ encodeLength 0
  | .vrecord fields => encodeItems fields
  | .vunion b v => encodeLength b ++ encodeValue v

def encodeItems : AvroValueList → List Nat
  | .nil => []
  | .cons v tl => encodeValue v ++ encodeItems tl

def encodeEntries : AvroEntryList → List Nat
  | .nil => []
  | .cons k v tl => encodeLength k.length ++ k ++ encodeValue v ++ encodeEntries tl

end

/-! ## Encoded size (`avro_value_sizeof`, spec §4.4)

Modelled from the spec: "computes the exact serialized length by structural
recursion (variable-length integer encoding lengths depend on magnitude;
strings/bytes/arrays/maps include length prefixes; fixed/record sizes are
the sum of children; unions add the discriminant's encoded size to the
active branch's size)". -/

/-- Number of bytes in the varint rendering of a natural number. -/
def varintSize (n : Nat) : Nat :=
  if h : n < 128 then 1 else 1 + varintSize (n / 128)
termination_by n
decreasing_by
  exact Nat.div_lt_self (by omega) (by omega)

/-- Encoded size of an Avro `long`/`int`. -/
def longSize (i : Int) : Nat := varintSize (zigzagEnc i)

/-- Encoded size of a nonnegative count/length/index. -/
def lengthSize (n : Nat) : Nat := longSize (n : Int)

mutual

def sizeofValue : AvroValue → Nat
  | .vnull => 0
  | .vboolean _ => 1
  | .vint i => longSize i
  | .vlong i => longSize i
  | .vfloat _ => 4
  | .vdouble _ => 8
  | .vbytes bs => lengthSize bs.length + bs.length
  | .vstring bs => lengthSize bs.length + bs.length
  | .vfixed bs => bs.length
  | .venum idx => lengthSize idx
  | .varray items =>
    (if items = .nil then 0
     else lengthSize items.length + sizeofItems items) + lengthSize 0
  | .vmap entries =>
    (if entries = .nil then 0
     else lengthSize entries.length + sizeofEntries entries) + lengthSize 0
  | .vrecord fields => sizeofItems fields
  | .vunion b v => lengthSize b + sizeofValue v

def sizeofItems : AvroValueList → Nat
  | .nil => 0
  | .cons v tl => sizeofValue v + sizeofItems tl

def sizeofEntries : AvroEntryList → Nat
  | .nil => 0
  | .cons k v tl => lengthSize k.length + k.length + sizeofValue v + sizeofEntries tl

end

/-! ## Binary decoding (wire format §6, spec §4.4)

Modelled from the spec: `avro_value_read` through a resolver whose writer
and reader schemas are identical decodes directly (§4.5 "identical
primitive types resolve directly", applied recursively), validating bounds
at every step: negative counts, truncated buffers and out-of-range union
discriminants or enum indices fail (`Truncated`/`InvalidEncoding`), never
undefined behaviour. -/

/-- Decodes `n` consecutive array items with the given item decoder. -/
def decodeItemsArr (dec : List Nat → Option (AvroValue × List Nat)) :
    Nat → List Nat → Option (AvroValueList × List Nat)
  | 0, buf => some (.nil, buf)
  | n + 1, buf =>
    (dec buf).bind (fun p =>
      (decodeItemsArr dec n p.2).map (fun q => (.cons p.1 q.1, q.2)))

/-- Decodes `n` consecutive map entries (encoded key string, then value). -/
def decodeItemsMap (dec : List Nat → Option (AvroValue × List Nat)) :
    Nat → List Nat → Option (AvroEntryList × List Nat)
  | 0, buf => some (.nil, buf)
  | n + 1, buf =>
    (decodeBytesBody buf).bind (fun k =>
      (dec k.2).bind (fun p =>
        (decodeItemsMap dec n p.2).map (fun q => (.cons k.1 p.1 q.1, q.2))))

/-- Decodes the block sequence of an array: repeated (`long` count, items)
blocks, terminated by a zero-count block.  Each block consumes at least one
byte for its count, so `buf.length + 1` fuel always suffices. -/
def decodeBlocksArr (dec : List Nat → Option (AvroValue × List Nat)) :
    Nat → List Nat → Option (AvroValueList × List Nat)
  | 0, _ => none
  | fuel + 1, buf =>
    (decodeLong buf).bind (fun c =>
      if c.1 < 0 then none
      else if c.1 = 0 then some (.nil, c.2)
      else
        (decodeItemsArr dec c.1.toNat c.2).bind (fun p =>
          (decodeBlocksArr dec fuel p.2).map (fun q => (p.1.append q.1, q.2))))

/-- Decodes the block sequence of a map. -/
def decodeBlocksMap (dec : List Nat → Option (AvroValue × List Nat)) :
    Nat → List Nat → Option (AvroEntryList × List Nat)
  | 0, _ => none
  | fuel + 1, buf =>
    (decodeLong buf).bind (fun c =>
      if c.1 < 0 then none
      else if c.1 = 0 then some (.nil, c.2)
      else
        (decodeItemsMap dec c.1.toNat c.2).bind (fun p =>
          (decodeBlocksMap dec fuel p.2).map (fun q => (p.1.append q.1, q.2))))

mutual

/-- Reads one value of the given schema from the front of a byte buffer,
returning the value and the unread remainder. -/
def decodeValue : AvroSchema → List Nat → Option (AvroValue × List Nat)
  | .snull, buf => some (.vnull, buf)
  | .sboolean, buf =>
    match buf with
    | [] => none
    | b :: rest => some (.vboolean (b != 0), rest)
  | .sint, buf => (decodeLong buf).map (fun p => (.vint p.1, p.2))
  | .slong, buf => (decodeLong buf).map (fun p => (.vlong p.1, p.2))
  | .sfloat, buf => (decodeLE 4 buf).map (fun p => (.vfloat p.1, p.2))
  | .sdouble, buf => (decodeLE 8 buf).map (fun p => (.vdouble p.1, p.2))
  | .sbytes, buf => (decodeBytesBody buf).map (fun p => (.vbytes p.1, p.2))
  | .sstring, buf => (decodeBytesBody buf).map (fun p => (.vstring p.1, p.2))
  | .sfixed size, buf =>
    if size ≤ buf.length then some (.vfixed (buf.take size), buf.drop size) else none
  | .senum symbols, buf =>
    (decodeLong buf).bind (fun p =>
      if 0 ≤ p.1 ∧ p.1.toNat < symbols.length then some (.venum p.1.toNat, p.2) else none)
  | .sarray item, buf =>
    (decodeBlocksArr (fun b => decodeValue item b) (buf.length + 1) buf).map
      (fun p => (.varray p.1, p.2))
  | .smap values, buf =>
    (decodeBlocksMap (fun b => decodeValue values b) (buf.length + 1) buf).map
      (fun p => (.vmap p.1, p.2))
  | .srecord sfields, buf =>
    (decodeFields sfields buf).map (fun p => (.vrecord p.1, p.2))
  | .sunion branches, buf =>
    (decodeLong buf).bind (fun p =>
      if p.1 < 0 then none
      else
        (decodeBranch branches p.1.toNat p.2).map (fun q => (.vunion p.1.toNat q.1, q.2)))

/-- Reads a record's fields in declared order. -/
def decodeFields : AvroFields → List Nat → Option (AvroValueList × List Nat)
  | .nil, buf => some (.nil, buf)
  | .cons _ s tl, buf =>
    (decodeValue s buf).bind (fun p =>
      (decodeFields tl p.2).map (fun q => (.cons p.1 q.1, q.2)))

/-- Reads the branch at a 0-based discriminant; an out-of-range
discriminant fails. -/
def decodeBranch : AvroFields → Nat → List Nat → Option (AvroValue × List Nat)
  | .nil, _, _ => none
  | .cons _ s _, 0, buf => decodeValue s buf
  | .cons _ _ tl, d + 1, buf => decodeBranch tl d buf

end

/-! ## The Lua binding layer (`src/avro/legacy/avro.c`)

A binding function either pushes a result (`ok`), returns `nil` plus a
message (`nilErr`, the `lua_return_avro_error` style: a recoverable result
the caller inspects), or raises a Lua error (`luaError`, via `lua_error` /
`luaL_error`: recoverable with `pcall`).  No path aborts the process. -/

inductive LuaResult (α : Type) where
  | ok (a : α)
  | nilErr (msg : String)
  | luaError (msg : String)
  deriving DecidableEq

/-- Error propagation of a nested `lua_call`. -/
def LuaResult.bindR : LuaResult α → (α → LuaResult β) → LuaResult β
  | .ok a, f => f a
  | .nilErr m, _ => .nilErr m
  | .luaError m, _ => .luaError m

/-- Renders a byte-string name inside an error message
(`lua_pushfstring(L, "No %s branch in union", ...)`). -/
def bytesToStr (bs : List Nat) : String := String.mk (bs.map Char.ofNat)

/-- The byte string `"null"`. -/
def nullName : List Nat := [110, 117, 108, 108]

/-! Default/empty state of a freshly created or reset generic value
(spec §4.1 `reset`: empty array/map, zero scalar; a union rests on its
first branch). -/

mutual

def defaultValue : AvroSchema → AvroValue
  | .snull => .vnull
  | .sboolean => .vboolean false
  | .sint => .vint 0
  | .slong => .vlong 0
  | .sfloat => .vfloat 0
  | .sdouble => .vdouble 0
  | .sbytes => .vbytes []
  | .sstring => .vstring []
  | .sfixed size => .vfixed (List.replicate size 0)
  | .senum _ => .venum 0
  | .sarray _ => .varray .nil
  | .smap _ => .vmap .nil
  | .srecord fields => .vrecord (defaultFields fields)
  | .sunion branches => .vunion 0 (defaultBranch branches)

def defaultFields : AvroFields → AvroValueList
  | .nil => .nil
  | .cons _ s tl => .cons (defaultValue s) (defaultFields tl)

def defaultBranch : AvroFields → AvroValue
  | .nil => .vnull
  | .cons _ s _ => defaultValue s

end

/-! ### Scalar conversions performed by the binding -/

/-- Two's-complement wrap of an integer into `w` bits: the conversion a
`lua_Integer` undergoes when passed to `avro_value_set_int` (32 bits) or
`avro_value_set_long` (64 bits). -/
def wrapSigned (w : Nat) (i : Int) : Int :=
  (i + 2 ^ (w - 1)) % 2 ^ w - 2 ^ (w - 1)

/-- Round-to-nearest-even of `m / 2^shift`, for `shift ≥ 1`. -/
def roundNearestEven (m shift : Nat) : Nat :=
  let q := m / 2 ^ shift
  let r := m % 2 ^ shift
  let half := 2 ^ (shift - 1)
  if half < r ∨ (r = half ∧ q % 2 = 1) then q + 1 else q

/-- IEEE-754 bit pattern (for the given exponent/mantissa widths) of a
positive integer magnitude, rounding to nearest-even and overflowing to
infinity: the C conversions `(float) n` / `(double) n` applied to an
integral `lua_Number`. -/
def floatBitsOfMag (expBits mantBits m : Nat) : Nat :=
  let e := Nat.log2 m
  let bias := 2 ^ (expBits - 1) - 1
  let maxExp := 2 ^ expBits - 1
  if e ≤ mantBits then
    if e + bias < maxExp then
      (e + bias) * 2 ^ mantBits + (m * 2 ^ (mantBits - e) - 2 ^ mantBits)
    else maxExp * 2 ^ mantBits
  else
    let q := roundNearestEven m (e - mantBits)
    let eq2 := if q = 2 ^ (mantBits + 1) then (e + 1, 2 ^ mantBits) else (e, q)
    if eq2.1 + bias < maxExp then
      (eq2.1 + bias) * 2 ^ mantBits + (eq2.2 - 2 ^ mantBits)
    else maxExp * 2 ^ mantBits

def float32BitsOfInt (i : Int) : Nat :=
  if i = 0 then 0
  else (if i < 0 then 2 ^ 31 else 0) + floatBitsOfMag 8 23 i.natAbs

def float64BitsOfInt (i : Int) : Nat :=
  if i = 0 then 0
  else (if i < 0 then 2 ^ 63 else 0) + floatBitsOfMag 11 52 i.natAbs

/-! ### Lua-side values (arguments and AST literals)

A Lua value as seen by `l_value_set` / `l_value_set_from_ast`: nil, a
boolean, a number (integral `lua_Number`), a string, an array-like table
(consecutive numeric keys, as consumed by `lua_objlen`/`lua_rawgeti`) or an
association table (string keys, as consumed by `lua_next`; `lua_next`
enumerates in storage order, modelled as list order).  Lua's implicit
number-to-string coercion inside `luaL_checklstring` is not modelled. -/

mutual

inductive LuaAst where
  | anil
  | abool (b : Bool)
  | anum (i : Int)
  | astr (s : List Nat)
  | aarr (items : AstList)
  | atable (fields : AstFields)
  deriving DecidableEq

inductive AstList where
  | nil
  | cons (a : LuaAst) (tl : AstList)
  deriving DecidableEq

inductive AstFields where
  | nil
  | cons (key : List Nat) (v : LuaAst) (tl : AstFields)
  deriving DecidableEq

end

/-- `lua_toboolean`: nil and false are falsy, everything else is truthy. -/
def luaToBoolean : LuaAst → Bool
  | .anil => false
  | .abool b => b
  | _ => true

/-- Index of a symbol in an enum schema (`avro_schema_enum_get_by_name`). -/
def findSymbol : List (List Nat) → List Nat → Option Nat
  | [], _ => none
  | s :: tl, sym =>
    if s = sym then some 0 else (findSymbol tl sym).map (· + 1)

/-- The scalar cases of `l_value_set`: stores a Lua scalar into a value of
scalar schema.  Wrong argument types raise (`luaL_check*`). -/
def l_value_set_scalar (s : AvroSchema) (arg : LuaAst) : LuaResult AvroValue :=
  match s, arg with
  | .sstring, .astr bs => .ok (.vstring bs)
  | .sstring, _ => .luaError "bad argument"
  | .sbytes, .astr bs => .ok (.vbytes bs)
  | .sbytes, _ => .luaError "bad argument"
  | .sint, .anum i => .ok (.vint (wrapSigned 32 i))
  | .sint, _ => .luaError "bad argument"
  | .slong, .anum i => .ok (.vlong (wrapSigned 64 i))
  | .slong, _ => .luaError "bad argument"
  | .sfloat, .anum i => .ok (.vfloat (float32BitsOfInt i))
  | .sfloat, _ => .luaError "bad argument"
  | .sdouble, .anum i => .ok (.vdouble (float64BitsOfInt i))
  | .sdouble, _ => .luaError "bad argument"
  | .sboolean, a => .ok (.vboolean (luaToBoolean a))
  | .snull, _ => .ok .vnull
  | .senum _, .anum i =>
    if 1 ≤ i then .ok (.venum (i - 1).toNat)
    else .luaError "Invalid enum symbol index"
  | .senum symbols, .astr sym =>
    match findSymbol symbols sym with
    | some idx => .ok (.venum idx)
    | none => .luaError ("No symbol named " ++ bytesToStr sym)
  | .senum _, _ => .luaError "bad argument"
  | .sfixed size, .astr bs =>
    if bs.length = size then .ok (.vfixed bs) else .luaError "Invalid fixed size"
  | .sfixed _, _ => .luaError "bad argument"
  | _, _ => .luaError "Don't know how to set in value type"

/-! ### `l_value_set_from_ast` (AST populator, spec §4.2)

Translated case-for-case from the C `switch`: scalars delegate to
`l_value_set`; arrays reset then append+populate per element; maps add one
entry per key, populating existing entries in place (`avro_value_add`
returns the existing element for a duplicate key); records populate only
the fields present in the literal; unions accept nil (selects the branch
named `"null"`) or a table, where the FIRST key-value pair delivered by
`lua_next` selects and populates a branch — an empty table is an error,
extra pairs beyond the first are ignored (the C never re-checks). -/

mutual

def l_value_set_from_ast : AvroSchema → AvroValue → LuaAst → LuaResult AvroValue
  | .sboolean, _, ast => l_value_set_scalar .sboolean ast
  | .snull, _, ast => l_value_set_scalar .snull ast
  | .senum symbols, _, ast => l_value_set_scalar (.senum symbols) ast
  | .sbytes, _, ast =>
    match ast with
    | .astr _ => l_value_set_scalar .sbytes ast
    | _ => .luaError "bad argument"
  | .sstring, _, ast =>
    match ast with
    | .astr _ => l_value_set_scalar .sstring ast
    | _ => .luaError "bad argument"
  | .sfixed size, _, ast =>
    match ast with
    | .astr _ => l_value_set_scalar (.sfixed size) ast
    | _ => .luaError "bad argument"
  | .sdouble, _, ast =>
    match ast with
    | .anum _ => l_value_set_scalar .sdouble ast
    | _ => .luaError "bad argument"
  | .sfloat, _, ast =>
    match ast with
    | .anum _ => l_value_set_scalar .sfloat ast
    | _ => .luaError "bad argument"
  | .sint, _, ast =>
    match ast with
    | .anum _ => l_value_set_scalar .sint ast
    | _ => .luaError "bad argument"
  | .slong, _, ast =>
    match ast with
    | .anum _ => l_value_set_scalar .slong ast
    | _ => .luaError "bad argument"
  | .sarray item, _, ast =>
    match ast with
    | .aarr l => (setArrayItems item l).bindR (fun vs => .ok (.varray vs))
    | _ => .luaError "bad argument"
  | .smap values, cur, ast =>
    match cur, ast with
    | .vmap entries, .atable fs =>
      (setMapEntries values entries fs).bindR (fun es => .ok (.vmap es))
    | _, .atable _ => .luaError "value is not a map"
    | _, _ => .luaError "bad argument"
  | .srecord sfields, cur, ast =>
    match cur, ast with
    | .vrecord fvals, .atable fs =>
      (setRecordFields sfields fvals fs).bindR (fun vs => .ok (.vrecord vs))
    | _, .atable _ => .luaError "value is not a record"
    | _, _ => .luaError "bad argument"
  | .sunion branches, _, ast =>
    match ast with
    | .anil =>
      match branches.findName nullName with
      | none => .luaError ("No " ++ bytesToStr nullName ++ " branch in union")
      | some (d, _) => (populateBranchNil branches d).bindR (fun bv => .ok (.vunion d bv))
    | .atable .nil => .luaError "Union AST must have exactly one element"
    | .atable (.cons k a _) =>
      match branches.findName k with
      | none => .luaError ("No " ++ bytesToStr k ++ " branch in union")
      | some (d, s) =>
        (l_value_set_from_ast s (defaultValue s) a).bindR (fun bv => .ok (.vunion d bv))
    | .aarr .nil => .luaError "Union AST must have exactly one element"
    | .aarr (.cons a _) =>
      match branches.nthSchema 0 with
      | none => .luaError "Invalid union discriminant"
      | some s =>
        (l_value_set_from_ast s (defaultValue s) a).bindR (fun bv => .ok (.vunion 0 bv))
    | _ => .luaError "bad argument"
termination_by s _ ast => (sizeOf ast, sizeOf s)

/-- Populating the branch at discriminant `d` with a nil literal (the
recursive `set_from_ast(branch, nil)` call of the union-nil case). -/
def populateBranchNil : AvroFields → Nat → LuaResult AvroValue
  | .nil, _ => .luaError "Invalid union discriminant"
  | .cons _ s _, 0 => l_value_set_from_ast s (defaultValue s) .anil
  | .cons _ _ tl, d + 1 => populateBranchNil tl d
termination_by bs _ => ((1 : Nat), sizeOf bs)

/-- Array population: `avro_value_reset` then, per element in order,
`avro_value_append` followed by a recursive populate of the fresh child. -/
def setArrayItems : AvroSchema → AstList → LuaResult AvroValueList
  | _, .nil => .ok .nil
  | item, .cons a tl =>
    (l_value_set_from_ast item (defaultValue item) a).bindR (fun v =>
      (setArrayItems item tl).bindR (fun vs => .ok (.cons v vs)))
termination_by item l => (sizeOf l, sizeOf item)

/-- Map population: `avro_value_add` per key (existing keys hand back the
stored element), then a recursive populate of that element. -/
def setMapEntries : AvroSchema → AvroEntryList → AstFields → LuaResult AvroEntryList
  | _, entries, .nil => .ok entries
  | values, entries, .cons k a tl =>
    match entries.find k with
    | some p =>
      (l_value_set_from_ast values p.2 a).bindR (fun v =>
        setMapEntries values (entries.replace k v) tl)
    | none =>
      (l_value_set_from_ast values (defaultValue values) a).bindR (fun v =>
        setMapEntries values (entries.append (.cons k v .nil)) tl)
termination_by values _ fs => (sizeOf fs, sizeOf values)

/-- Record population: for each literal key, fetch the field by name and
populate it; only fields present in the literal are touched.  A key naming
no field makes `l_value_get` return nil and the nested `set_from_ast` call
fail its argument check. -/
def setRecordFields : AvroFields → AvroValueList → AstFields → LuaResult AvroValueList
  | _, fvals, .nil => .ok fvals
  | sfields, fvals, .cons k a tl =>
    match sfields.findName k with
    | none => .luaError "bad argument"
    | some (d, s) =>
      match fvals.getAt d with
      | none => .luaError "bad argument"
      | some old =>
        (l_value_set_from_ast s old a).bindR (fun v =>
          setRecordFields sfields (fvals.setAt d v) tl)
termination_by sfields _ fs => (sizeOf fs, sizeOf sfields)

end

/-! ### Value accessors and mutators of the binding -/

/-- `l_value_size`: array/map sizes only; any other type tag raises. -/
def l_value_size (v : AvroValue) : LuaResult Nat :=
  match v with
  | .varray items => .ok items.length
  | .vmap entries => .ok entries.length
  | _ => .luaError "Can only get size of array or map"

/-- `l_value_discriminant_index`: requires a union; pushes the library's
0-based discriminant plus one. -/
def l_value_discriminant_index (v : AvroValue) : LuaResult Int :=
  match v with
  | .vunion b _ => .ok ((b : Int) + 1)
  | _ => .luaError "Can't get discriminant of a non-union value"

/-- `avro_value_set_branch` — modelled from the spec (§3): setting the
discriminant resets the value to the branch's default/empty state; an
invalid discriminant is a recoverable error.  Returns the new union value
and the branch child view. -/
def avro_value_set_branch (branches : AvroFields) (d : Int) :
    LuaResult (AvroValue × AvroValue) :=
  if 0 ≤ d then
    match branches.nthSchema d.toNat with
    | some s => .ok (.vunion d.toNat (defaultValue s), defaultValue s)
    | none => .luaError "Invalid union discriminant"
  else .luaError "Invalid union discriminant"

/-- A Lua argument used to select a union branch: a number (1-based index),
a string (branch name), or anything else. -/
inductive LuaKey where
  | knum (i : Int)
  | kstr (s : List Nat)
  | kother
  deriving DecidableEq

/-- `select_union_branch`: numbers select by 1-based index, strings by
branch name (unknown names raise "No %s branch in union"), other types
raise. -/
def select_union_branch (branches : AvroFields) (key : LuaKey) :
    LuaResult (AvroValue × AvroValue) :=
  match key with
  | .knum i => avro_value_set_branch branches (i - 1)
  | .kstr name =>
    match branches.findName name with
    | none => .luaError ("No " ++ bytesToStr name ++ " branch in union")
    | some (d, _) => avro_value_set_branch branches (d : Int)
  | .kother => .luaError "Can only set string or integer index in union"

/-- The `AVRO_ARRAY` case of `l_value_get`: a 1-based index into the array;
an index below 1 or above the size yields `(nil, "Index out of bounds")`.
The second component is the array state after the call (the operation
never mutates it). -/
def l_value_get_array (arr : AvroValueList) (index : Int) :
    LuaResult AvroValue × AvroValueList :=
  let array_size := arr.length
  if index < 1 ∨ (array_size : Int) < index then (.nilErr "Index out of bounds", arr)
  else
    match arr.getAt (index - 1).toNat with
    | some element => (.ok element, arr)
    | none => (.luaError "avro_value_get_by_index failed", arr)

/-- `l_value_add`: map-only; `avro_value_add` hands back the existing
element for a duplicate key, else appends a fresh default.  Returns the
updated map and the element view. -/
def l_value_add (valuesSchema : AvroSchema) (v : AvroValue) (key : List Nat) :
    LuaResult (AvroValue × AvroValue) :=
  match v with
  | .vmap entries =>
    match entries.find key with
    | some p => .ok (.vmap entries, p.2)
    | none =>
      .ok (.vmap (entries.append (.cons key (defaultValue valuesSchema) .nil)),
        defaultValue valuesSchema)
  | _ => .luaError "Can only add to an map"

/-- `l_value_append`: array-only; appends one trailing default element and
returns the updated array and the element view. -/
def l_value_append (itemSchema : AvroSchema) (v : AvroValue) :
    LuaResult (AvroValue × AvroValue) :=
  match v with
  | .varray items =>
    .ok (.varray (items.append (.cons (defaultValue itemSchema) .nil)),
      defaultValue itemSchema)
  | _ => .luaError "Can only append to an array"

/-! ### The string NUL-terminator convention (`l_value_set` / `l_value_get`)

`l_value_set` on a string value stores the Lua string plus a NUL
terminator (`avro_value_set_string_len(value, str, str_len + 1)`);
`l_value_get` pushes `size - 1` bytes ("size contains the NUL
terminator"). -/

/-- Stored representation after `l_value_set` on a string value. -/
def l_value_set_string (s : List Nat) : List Nat := s ++ [0]

/-- Bytes pushed by `l_value_get` on a string value. -/
def l_value_get_string (stored : List Nat) : List Nat :=
  stored.take (stored.length - 1)

/-- Wire encoding of a stored string: the writer emits `size - 1` bytes
behind a `size - 1` length prefix, so the stored terminator never reaches
the wire (spec §6). -/
def encodeStoredString (stored : List Nat) : List Nat :=
  encodeLength (stored.length - 1) ++ stored.take (stored.length - 1)

/-! ### Iterator (`iterate_array` / `l_value_iterate`) -/

/-- One step of `iterate_array`.  The iterator state is the 0-based
`next_index` cursor; the C re-reads `avro_value_get_size` on every call, so
the step takes the array's current contents.  Yields the 1-based position
and the element, or nothing once the cursor reaches the size. -/
def iterate_array (arr : AvroValueList) (next_index : Nat) :
    Option (Nat × AvroValue) × Nat :=
  let length := arr.length
  if next_index ≥ length then (none, next_index)
  else
    match arr.getAt next_index with
    | some element => (some (next_index + 1, element), next_index + 1)
    | none => (none, next_index)

/-- Driving `iterate_array` as a Lua `for` loop does: step until the
iterator yields nothing.  `fuel` bounds the number of steps taken. -/
def iterRun (arr : AvroValueList) : Nat → Nat → List (Nat × AvroValue)
  | 0, _ => []
  | fuel + 1, st =>
    match iterate_array arr st with
    | (none, _) => []
    | (some p, st2) => p :: iterRun arr fuel st2

/-- The expected iteration trace: 1-based positions paired with elements in
order, starting at position `i`. -/
def enumFrom : Nat → AvroValueList → List (Nat × AvroValue)
  | _, .nil => []
  | i, .cons v tl => (i, v) :: enumFrom (i + 1) tl

/-! ### Encoding entry points -/

/-- `avro_value_write` into a buffer of the given capacity — modelled from
the spec (§4.4): writes the §6 encoding, fails (`BufferTooSmall`) when the
capacity is insufficient.  Returns the buffer contents. -/
def avro_value_write (capacity : Nat) (v : AvroValue) : Option (List Nat) :=
  if (encodeValue v).length ≤ capacity then
    some (encodeValue v ++ List.replicate (capacity - (encodeValue v).length) 0)
  else none

/-- `l_value_encode`: computes `avro_value_sizeof`, writes into the
65536-byte static buffer when the size fits, else into a heap buffer of
exactly that size, and pushes a `size`-byte Lua string either way. -/
def l_value_encode (v : AvroValue) : LuaResult (List Nat) :=
  let size := sizeofValue v
  if size ≤ 65536 then
    match avro_value_write size v with
    | some buf => .ok buf
    | none => .nilErr "Write failed"
  else
    match avro_value_write size v with
    | some buf => .ok buf
    | none => .nilErr "Write failed"

/-- `l_value_encoded_size`: pushes `avro_value_sizeof`. -/
def l_value_encoded_size (v : AvroValue) : Nat := sizeofValue v

/-- `l_resolved_writer_decode` for a resolver whose writer and reader
schemas are both `s`: identical schemas resolve directly (spec §4.5), so
the resolved read is the plain §6 decode into the destination value.
Trailing bytes after one value are left unread, as `avro_value_read`
leaves them. -/
def l_resolved_writer_decode (s : AvroSchema) (buf : List Nat) :
    LuaResult AvroValue :=
  match decodeValue s buf with
  | some p => .ok p.1
  | none => .nilErr "Error reading value from memory buffer"

/-! ### `l_value_copy_from` -/

/-- `avro_value_copy` — modelled from the spec (§4.1): deep-copies `src`
into `dest` and returns 0 exactly when the two schemas agree structurally,
a nonzero error code otherwise.  Returns (rc, resulting dest). -/
def avro_value_copy (destSchema srcSchema : AvroSchema)
    (dest src : AvroValue) : Int × AvroValue :=
  if destSchema = srcSchema then (0, src) else (1, dest)

/-- `l_value_copy_from`: pushes `lua_pushboolean(L, avro_value_copy(dest, src))`
— the raw return code as a boolean.  Returns the resulting dest and the
pushed boolean. -/
def l_value_copy_from (destSchema srcSchema : AvroSchema)
    (dest src : AvroValue) : AvroValue × Bool :=
  let r := avro_value_copy destSchema srcSchema dest src
  (r.2, r.1 != 0)

/-! ### `l_value_release` -/

/-- The `avro_value_t` struct: an interface pointer and a state pointer
(abstract addresses here). -/
structure AvroValueRef where
  iface : Option Nat
  self : Option Nat
  deriving DecidableEq

/-- The `LuaAvroValue` userdata wrapper: a value and an ownership flag. -/
structure LuaAvroValue where
  value : AvroValueRef
  should_decref : Bool
  deriving DecidableEq

/-- `l_value_release`: decrements the refcount only when the wrapper owns a
live value, then clears both pointers and the ownership flag.  Returns the
wrapper's new state and the number of `avro_value_decref` calls made. -/
def l_value_release (w : LuaAvroValue) : LuaAvroValue × Nat :=
  let decrefs := if w.should_decref && w.value.self.isSome then 1 else 0
  (⟨⟨none, none⟩, false⟩, decrefs)

/-! ## Properties of the embedding -/

theorem zigzagDec_zigzagEnc (i : Int) : zigzagDec (zigzagEnc i) = i := by
  unfold zigzagEnc zigzagDec
  by_cases h : 0 ≤ i
  · simp only [if_pos h]
    omega
  · simp only [if_neg h]
    omega

theorem decodeVarint_varintEncode (n : Nat) (rest : List Nat) :
    decodeVarint (varintEncode n ++ rest) = some (n, rest) := by
  induction n using Nat.strong_induction_on with
  | _ n ih =>
    by_cases h : n < 128
    · rw [varintEncode, dif_pos h]
      simp [decodeVarint, h]
    · rw [varintEncode, dif_neg h]
      have hrec := ih (n / 128) (Nat.div_lt_self (by omega) (by omega))
      simp only [List.cons_append, decodeVarint, if_neg (by omega : ¬ n % 128 + 128 < 128),
        List.append_eq, hrec]
      simp only [Option.map_some']
      have : n / 128 * 128 + (n % 128 + 128 - 128) = n := by omega
      rw [this]

/-- Every byte produced by `varintEncode` is below 256. -/
theorem varintEncode_lt_256 (n : Nat) : ∀ b ∈ varintEncode n, b < 256 := by
  induction n using Nat.strong_induction_on with
  | _ n ih =>
    by_cases h : n < 128
    · rw [varintEncode, dif_pos h]
      intro b hb
      simp at hb
      omega
    · rw [varintEncode, dif_neg h]
      intro b hb
      simp only [List.mem_cons] at hb
      rcases hb with hb | hb
      · have := Nat.mod_lt n (y := 128) (by omega)
        omega
      · exact ih (n / 128) (Nat.div_lt_self (by omega) (by omega)) b hb

theorem decodeLong_encodeLong (i : Int) (rest : List Nat) :
    decodeLong (encodeLong i ++ rest) = some (i, rest) := by
  simp [decodeLong, encodeLong, decodeVarint_varintEncode, zigzagDec_zigzagEnc]

theorem decodeLong_encodeLength (n : Nat) (rest : List Nat) :
    decodeLong (encodeLength n ++ rest) = some ((n : Int), rest) := by
  simp [encodeLength, decodeLong_encodeLong]

theorem decodeLE_natToLE (w n : Nat) (rest : List Nat) (h : n < 256 ^ w) :
    decodeLE w (natToLE w n ++ rest) = some (n, rest) := by
  induction w generalizing n with
  | zero =>
    simp only [Nat.pow_zero, Nat.lt_one_iff] at h
    simp [natToLE, decodeLE, h]
  | succ k ih =>
    have hdiv : n / 256 < 256 ^ k := by
      rw [Nat.div_lt_iff_lt_mul (by omega)]
      calc n < 256 ^ (k + 1) := h
        _ = 256 ^ k * 256 := by ring
    simp only [natToLE, List.cons_append, decodeLE, List.append_eq, ih (n / 256) hdiv]
    simp only [Option.map_some']
    have : n % 256 + 256 * (n / 256) = n := by omega
    rw [this]

theorem decodeBytesBody_encode (bs rest : List Nat) :
    decodeBytesBody (encodeLength bs.length ++ (bs ++ rest)) = some (bs, rest) := by
  simp only [decodeBytesBody, decodeLong_encodeLength, Option.some_bind]
  have h0 : ¬ ((bs.length : Int) < 0) := by omega
  have h1 : ((bs.length : Int)).toNat = bs.length := by omega
  rw [if_neg h0, h1, if_pos (by simp)]
  simp

theorem valueList_append_nil : ∀ (xs : AvroValueList), xs.append .nil = xs
  | .nil => rfl
  | .cons v tl => by simp [AvroValueList.append, valueList_append_nil tl]

theorem entryList_append_nil : ∀ (xs : AvroEntryList), xs.append .nil = xs
  | .nil => rfl
  | .cons k v tl => by simp [AvroEntryList.append, entryList_append_nil tl]

theorem AvroFields.nthSchema_findName : ∀ (fs : AvroFields) (name : List Nat) (d : Nat) (s : AvroSchema),
    findName fs name = some (d, s) → nthSchema fs d = some s
  | .nil, name, d, s, h => by simp [findName] at h
  | .cons n s' tl, name, d, s, h => by
    by_cases hn : n = name
    · simp only [findName, if_pos hn, Option.some.injEq, Prod.mk.injEq] at h
      obtain ⟨hd, hs⟩ := h
      subst hs
      rw [← hd]
      rfl
    · simp only [findName, if_neg hn] at h
      cases hfind : findName tl name with
      | none => rw [hfind] at h; simp at h
      | some p =>
        rw [hfind] at h
        simp only [Option.map_some', Option.some.injEq, Prod.mk.injEq] at h
        obtain ⟨hd, hs⟩ := h
        have hrec := nthSchema_findName tl name p.1 p.2 (by rw [hfind])
        rw [← hd, ← hs]
        simpa [nthSchema] using hrec

theorem varintSize_eq_length (n : Nat) : varintSize n = (varintEncode n).length := by
  induction n using Nat.strong_induction_on with
  | _ n ih =>
    by_cases h : n < 128
    · rw [varintSize, dif_pos h, varintEncode, dif_pos h]
      rfl
    · rw [varintSize, dif_neg h, varintEncode, dif_neg h]
      simp [ih (n / 128) (Nat.div_lt_self (by omega) (by omega))]
      omega

theorem longSize_eq_length (i : Int) : longSize i = (encodeLong i).length := by
  simp [longSize, encodeLong, varintSize_eq_length]

theorem lengthSize_eq_length (n : Nat) : lengthSize n = (encodeLength n).length := by
  simp [lengthSize, encodeLength, longSize_eq_length]

mutual

theorem sizeofValue_eq_length (v : AvroValue) : sizeofValue v = (encodeValue v).length := by
  cases v with
  | vnull => rfl
  | vboolean b => rfl
  | vint i => simp [sizeofValue, encodeValue, longSize_eq_length]
  | vlong i => simp [sizeofValue, encodeValue, longSize_eq_length]
  | vfloat bits => simp [sizeofValue, encodeValue, natToLE]
  | vdouble bits => simp [sizeofValue, encodeValue, natToLE]
  | vbytes bs => simp [sizeofValue, encodeValue, lengthSize_eq_length]
  | vstring bs => simp [sizeofValue, encodeValue, lengthSize_eq_length]
  | vfixed bs => simp [sizeofValue, encodeValue]
  | venum idx => simp [sizeofValue, encodeValue, lengthSize_eq_length]
  | varray items =>
    cases items with
    | nil => simp [sizeofValue, encodeValue, lengthSize_eq_length]
    | cons v tl =>
      simp [sizeofValue, encodeValue, lengthSize_eq_length,
        sizeofItems_eq_length (.cons v tl)]
      omega
  | vmap entries =>
    cases entries with
    | nil => simp [sizeofValue, encodeValue, lengthSize_eq_length]
    | cons k v tl =>
      simp [sizeofValue, encodeValue, lengthSize_eq_length,
        sizeofEntries_eq_length (.cons k v tl)]
      omega
  | vrecord fields => simp [sizeofValue, encodeValue, sizeofItems_eq_length fields]
  | vunion b v =>
    simp [sizeofValue, encodeValue, lengthSize_eq_length, sizeofValue_eq_length v]

theorem sizeofItems_eq_length (vs : AvroValueList) :
    sizeofItems vs = (encodeItems vs).length := by
  cases vs with
  | nil => rfl
  | cons v tl =>
    simp [sizeofItems, encodeItems, sizeofValue_eq_length v, sizeofItems_eq_length tl]

theorem sizeofEntries_eq_length (es : AvroEntryList) :
    sizeofEntries es = (encodeEntries es).length := by
  cases es with
  | nil => rfl
  | cons k v tl =>
    simp [sizeofEntries, encodeEntries, lengthSize_eq_length, sizeofValue_eq_length v,
      sizeofEntries_eq_length tl]
    ring

end


/-! ## Round-trip: decoding an encoded value restores it -/

theorem encodeLength_zero : encodeLength 0 = [0] := by
  have hz : zigzagEnc ((0 : Nat) : Int) = 0 := by norm_num [zigzagEnc]
  rw [encodeLength, encodeLong, hz, varintEncode]
  norm_num

theorem decodeBranch_nthSchema :
    ∀ (bs : AvroFields) (d : Nat) (s : AvroSchema) (buf : List Nat),
      bs.nthSchema d = some s → decodeBranch bs d buf = decodeValue s buf
  | .nil, d, s, buf, h => by simp [AvroFields.nthSchema] at h
  | .cons n s' tl, 0, s, buf, h => by
    simp only [AvroFields.nthSchema, Option.some.injEq] at h
    subst h
    rfl
  | .cons n s' tl, d + 1, s, buf, h =>
    decodeBranch_nthSchema tl d s buf h

theorem decodeBlocksArr_rt (dec : List Nat → Option (AvroValue × List Nat))
    (items : AvroValueList) (rest : List Nat) (fuel : Nat) (hfuel : 2 ≤ fuel)
    (hdec : ∀ rest', decodeItemsArr dec items.length (encodeItems items ++ rest') =
      some (items, rest')) :
    decodeBlocksArr dec fuel
      (((if items = .nil then ([] : List Nat)
         else encodeLength items.length ++ encodeItems items) ++ encodeLength 0) ++ rest)
      = some (items, rest) := by
  obtain ⟨f, rfl⟩ : ∃ f, fuel = f + 2 := ⟨fuel - 2, by omega⟩
  cases items with
  | nil =>
    rw [if_pos rfl]
    simp only [List.nil_append, decodeBlocksArr, List.append_assoc]
    rw [decodeLong_encodeLength 0 rest]
    norm_num
  | cons v tl =>
    rw [if_neg (fun hc => AvroValueList.noConfusion hc)]
    simp only [decodeBlocksArr, List.append_assoc]
    rw [decodeLong_encodeLength]
    simp only [Option.some_bind]
    have hpos : (0 : Int) < ((AvroValueList.cons v tl).length : Int) := by
      simp [AvroValueList.length]
    rw [if_neg (by omega), if_neg (by omega)]
    have htn : (((AvroValueList.cons v tl).length : Int)).toNat =
        (AvroValueList.cons v tl).length := by omega
    rw [htn, hdec (encodeLength 0 ++ rest)]
    simp only [Option.some_bind]
    show Option.map _ (decodeBlocksArr dec (f + 1) (encodeLength 0 ++ rest)) = _
    simp only [decodeBlocksArr]
    rw [decodeLong_encodeLength 0 rest]
    norm_num [valueList_append_nil]

theorem decodeBlocksMap_rt (dec : List Nat → Option (AvroValue × List Nat))
    (entries : AvroEntryList) (rest : List Nat) (fuel : Nat) (hfuel : 2 ≤ fuel)
    (hdec : ∀ rest', decodeItemsMap dec entries.length (encodeEntries entries ++ rest') =
      some (entries, rest')) :
    decodeBlocksMap dec fuel
      (((if entries = .nil then ([] : List Nat)
         else encodeLength entries.length ++ encodeEntries entries) ++ encodeLength 0) ++ rest)
      = some (entries, rest) := by
  obtain ⟨f, rfl⟩ : ∃ f, fuel = f + 2 := ⟨fuel - 2, by omega⟩
  cases entries with
  | nil =>
    rw [if_pos rfl]
    simp only [List.nil_append, decodeBlocksMap, List.append_assoc]
    rw [decodeLong_encodeLength 0 rest]
    norm_num
  | cons k v tl =>
    rw [if_neg (fun hc => AvroEntryList.noConfusion hc)]
    simp only [decodeBlocksMap, List.append_assoc]
    rw [decodeLong_encodeLength]
    simp only [Option.some_bind]
    have hpos : (0 : Int) < ((AvroEntryList.cons k v tl).length : Int) := by
      simp [AvroEntryList.length]
    rw [if_neg (by omega), if_neg (by omega)]
    have htn : (((AvroEntryList.cons k v tl).length : Int)).toNat =
        (AvroEntryList.cons k v tl).length := by omega
    rw [htn, hdec (encodeLength 0 ++ rest)]
    simp only [Option.some_bind]
    show Option.map _ (decodeBlocksMap dec (f + 1) (encodeLength 0 ++ rest)) = _
    simp only [decodeBlocksMap]
    rw [decodeLong_encodeLength 0 rest]
    norm_num [entryList_append_nil]

mutual

theorem decode_encode (v : AvroValue) (s : AvroSchema) (rest : List Nat)
    (h : conforms v s = true) :
    decodeValue s (encodeValue v ++ rest) = some (v, rest) := by
  cases v with
  | vnull =>
    cases s <;> simp only [conforms] at h <;> try exact Bool.noConfusion h
    simp [encodeValue, decodeValue]
  | vboolean b =>
    cases s <;> simp only [conforms] at h <;> try exact Bool.noConfusion h
    cases b <;> simp [encodeValue, decodeValue]
  | vint i =>
    cases s <;> simp only [conforms] at h <;> try exact Bool.noConfusion h
    simp [encodeValue, decodeValue, decodeLong_encodeLong]
  | vlong i =>
    cases s <;> simp only [conforms] at h <;> try exact Bool.noConfusion h
    simp [encodeValue, decodeValue, decodeLong_encodeLong]
  | vfloat bits =>
    cases s <;> simp only [conforms] at h <;> try exact Bool.noConfusion h
    have hb : bits < 256 ^ 4 := by
      have := of_decide_eq_true h
      norm_num at this ⊢
      omega
    simp [encodeValue, decodeValue, decodeLE_natToLE 4 bits rest hb]
  | vdouble bits =>
    cases s <;> simp only [conforms] at h <;> try exact Bool.noConfusion h
    have hb : bits < 256 ^ 8 := by
      have := of_decide_eq_true h
      norm_num at this ⊢
      omega
    simp [encodeValue, decodeValue, decodeLE_natToLE 8 bits rest hb]
  | vbytes bs =>
    cases s <;> simp only [conforms] at h <;> try exact Bool.noConfusion h
    simp [encodeValue, decodeValue, List.append_assoc, decodeBytesBody_encode]
  | vstring bs =>
    cases s <;> simp only [conforms] at h <;> try exact Bool.noConfusion h
    simp [encodeValue, decodeValue, List.append_assoc, decodeBytesBody_encode]
  | vfixed bs =>
    cases s with
    | sfixed size =>
      simp only [conforms, Bool.and_eq_true, decide_eq_true_eq] at h
      obtain ⟨-, hlen⟩ := h
      subst hlen
      simp [encodeValue, decodeValue, List.take_left, List.drop_left]
    | _ =>
      simp only [conforms] at h
      exact Bool.noConfusion h
  | venum idx =>
    cases s with
    | senum symbols =>
      simp only [conforms, decide_eq_true_eq] at h
      simp only [encodeValue, decodeValue]
      rw [decodeLong_encodeLength]
      simp only [Option.some_bind]
      rw [if_pos (by constructor <;> omega)]
      simp
    | _ =>
      simp only [conforms] at h
      exact Bool.noConfusion h
  | varray items =>
    cases s with
    | sarray item =>
      simp only [conforms] at h
      simp only [encodeValue, decodeValue]
      rw [decodeBlocksArr_rt (fun b => decodeValue item b) items rest _
        (by
          simp only [List.length_append, encodeLength_zero, List.length_cons]
          omega)
        (fun rest' => decode_encode_items items item rest' h)]
      rfl
    | _ =>
      simp only [conforms] at h
      exact Bool.noConfusion h
  | vmap entries =>
    cases s with
    | smap values =>
      simp only [conforms] at h
      simp only [encodeValue, decodeValue]
      rw [decodeBlocksMap_rt (fun b => decodeValue values b) entries rest _
        (by
          simp only [List.length_append, encodeLength_zero, List.length_cons]
          omega)
        (fun rest' => decode_encode_entries entries values rest' h)]
      rfl
    | _ =>
      simp only [conforms] at h
      exact Bool.noConfusion h
  | vrecord fields =>
    cases s with
    | srecord sfields =>
      simp only [conforms] at h
      simp only [encodeValue, decodeValue]
      rw [decode_encode_fields fields sfields rest h]
      rfl
    | _ =>
      simp only [conforms] at h
      exact Bool.noConfusion h
  | vunion b v =>
    cases s with
    | sunion branches =>
      simp only [conforms] at h
      cases hn : branches.nthSchema b with
      | none => rw [hn] at h; exact absurd h (by simp)
      | some s' =>
        rw [hn] at h
        simp only [encodeValue, decodeValue, List.append_assoc]
        rw [decodeLong_encodeLength]
        simp only [Option.some_bind]
        rw [if_neg (by omega)]
        have htn : ((b : Int)).toNat = b := by omega
        rw [htn, decodeBranch_nthSchema branches b s' _ hn,
          decode_encode v s' rest h]
        rfl
    | _ =>
      simp only [conforms] at h
      exact Bool.noConfusion h

theorem decode_encode_items (vs : AvroValueList) (s : AvroSchema) (rest : List Nat)
    (h : conformsItems vs s = true) :
    decodeItemsArr (fun b => decodeValue s b) vs.length (encodeItems vs ++ rest) =
      some (vs, rest) := by
  cases vs with
  | nil => simp [AvroValueList.length, encodeItems, decodeItemsArr]
  | cons v tl =>
    simp only [conformsItems, Bool.and_eq_true] at h
    obtain ⟨h1, h2⟩ := h
    simp only [AvroValueList.length, encodeItems, decodeItemsArr, List.append_assoc]
    rw [decode_encode v s (encodeItems tl ++ rest) h1]
    simp only [Option.some_bind]
    rw [decode_encode_items tl s rest h2]
    rfl

theorem decode_encode_entries (es : AvroEntryList) (s : AvroSchema) (rest : List Nat)
    (h : conformsEntries es s = true) :
    decodeItemsMap (fun b => decodeValue s b) es.length (encodeEntries es ++ rest) =
      some (es, rest) := by
  cases es with
  | nil => simp [AvroEntryList.length, encodeEntries, decodeItemsMap]
  | cons k v tl =>
    simp only [conformsEntries, Bool.and_eq_true] at h
    obtain ⟨⟨-, h1⟩, h2⟩ := h
    simp only [AvroEntryList.length, encodeEntries, decodeItemsMap, List.append_assoc]
    rw [decodeBytesBody_encode k (encodeValue v ++ (encodeEntries tl ++ rest))]
    simp only [Option.some_bind]
    rw [decode_encode v s (encodeEntries tl ++ rest) h1]
    simp only [Option.some_bind]
    rw [decode_encode_entries tl s rest h2]
    rfl

theorem decode_encode_fields (vs : AvroValueList) (fs : AvroFields) (rest : List Nat)
    (h : conformsFields vs fs = true) :
    decodeFields fs (encodeItems vs ++ rest) = some (vs, rest) := by
  cases vs with
  | nil =>
    cases fs with
    | nil => simp [encodeItems, decodeFields]
    | cons n s tl => simp [conformsFields] at h
  | cons v vtl =>
    cases fs with
    | nil => simp [conformsFields] at h
    | cons n s stl =>
      simp only [conformsFields, Bool.and_eq_true] at h
      obtain ⟨h1, h2⟩ := h
      simp only [encodeItems, decodeFields, List.append_assoc]
      rw [decode_encode v s (encodeItems vtl ++ rest) h1]
      simp only [Option.some_bind]
      rw [decode_encode_fields vtl stl rest h2]
      rfl

end

/-! ## Supporting lemmas for the claims -/

theorem AvroValueList.length_append :
    ∀ (xs ys : AvroValueList), (xs.append ys).length = xs.length + ys.length
  | .nil, ys => by simp [AvroValueList.append, AvroValueList.length]
  | .cons v tl, ys => by
    simp [AvroValueList.append, AvroValueList.length, length_append tl ys]
    omega

theorem AvroValueList.getAt_append_self :
    ∀ (xs : AvroValueList) (e : AvroValue) (ys : AvroValueList),
      (xs.append (.cons e ys)).getAt xs.length = some e
  | .nil, _, _ => rfl
  | .cons _ tl, e, ys => getAt_append_self tl e ys

theorem AvroValueList.drop_zero : ∀ (xs : AvroValueList), xs.drop 0 = xs
  | .nil => rfl
  | .cons _ _ => rfl

theorem AvroValueList.drop_length_le :
    ∀ (xs : AvroValueList) (st : Nat), xs.length ≤ st → xs.drop st = .nil
  | .nil, 0, _ => rfl
  | .nil, _ + 1, _ => rfl
  | .cons v tl, st, h => by
    match st with
    | 0 =>
      simp [AvroValueList.length] at h
    | n + 1 =>
      exact drop_length_le tl n (by simp [AvroValueList.length] at h; omega)

theorem AvroValueList.getAt_drop_lt :
    ∀ (xs : AvroValueList) (st : Nat), st < xs.length →
      ∃ e, xs.getAt st = some e ∧ xs.drop st = .cons e (xs.drop (st + 1))
  | .nil, st, h => by simp [AvroValueList.length] at h
  | .cons v tl, 0, _ =>
    ⟨v, rfl, by
      rw [show (AvroValueList.cons v tl).drop (0 + 1) = tl.drop 0 from rfl, drop_zero,
        drop_zero]⟩
  | .cons v tl, n + 1, h => by
    obtain ⟨e, h1, h2⟩ := getAt_drop_lt tl n (by simp [AvroValueList.length] at h; omega)
    exact ⟨e, h1, h2⟩

theorem iterRun_enumFrom (fuel : Nat) : ∀ (arr : AvroValueList) (st : Nat),
    arr.length ≤ st + fuel → iterRun arr fuel st = enumFrom (st + 1) (arr.drop st) := by
  induction fuel with
  | zero =>
    intro arr st h
    rw [AvroValueList.drop_length_le arr st (by omega)]
    rfl
  | succ f ih =>
    intro arr st h
    by_cases hlt : st < arr.length
    · obtain ⟨e, h1, h2⟩ := AvroValueList.getAt_drop_lt arr st hlt
      rw [h2]
      simp only [iterRun, iterate_array]
      rw [if_neg (by omega), h1]
      simp only [enumFrom]
      rw [ih arr (st + 1) (by omega)]
    · rw [AvroValueList.drop_length_le arr st (by omega)]
      simp only [iterRun, iterate_array]
      rw [if_pos (by omega)]
      rfl

theorem populateBranchNil_nthSchema :
    ∀ (bs : AvroFields) (d : Nat) (s : AvroSchema), bs.nthSchema d = some s →
      populateBranchNil bs d = l_value_set_from_ast s (defaultValue s) .anil
  | .nil, d, s, h => by simp [AvroFields.nthSchema] at h
  | .cons n s' tl, 0, s, h => by
    simp only [AvroFields.nthSchema, Option.some.injEq] at h
    subst h
    simp [populateBranchNil]
  | .cons n s' tl, d + 1, s, h => by
    have hrec := populateBranchNil_nthSchema tl d s h
    simpa [populateBranchNil] using hrec

/-! ## The claims -/

/-- C1: For every schema and every value constructible from it, encoding the
value with `l_value_encode` and then decoding the resulting byte string with
a resolver whose writer and reader schemas are both the value's schema
produces a value structurally equal to the original. -/
theorem c1_encode_decode_roundtrip (s : AvroSchema) (v : AvroValue)
    (h : conforms v s = true) :
    l_value_encode v = .ok (encodeValue v) ∧
    l_resolved_writer_decode s (encodeValue v) = .ok v := by
  have hlen := sizeofValue_eq_length v
  constructor
  · unfold l_value_encode avro_value_write
    by_cases hsz : sizeofValue v ≤ 65536 <;> simp [hsz, hlen]
  · have hd := decode_encode v s [] h
    rw [List.append_nil] at hd
    unfold l_resolved_writer_decode
    rw [hd]

/-- Witness for C1 at a concrete record value containing an int, a string,
an array of longs, a union on its int branch, a map, an enum, a fixed and a
double. -/
theorem c1_encode_decode_roundtrip_witness :
    conforms
      (.vrecord (.cons (.vint 42) (.cons (.vstring [104, 105])
        (.cons (.varray (.cons (.vlong 1) (.cons (.vlong (-1)) .nil)))
        (.cons (.vunion 1 (.vint 7))
        (.cons (.vmap (.cons [107] (.vboolean true) .nil))
        (.cons (.venum 1) (.cons (.vfixed [1, 2])
        (.cons (.vdouble 3) .nil)))))))))
      (.srecord (.cons [97] .sint (.cons [98] .sstring
        (.cons [99] (.sarray .slong)
        (.cons [100] (.sunion (.cons nullName .snull (.cons [105] .sint .nil)))
        (.cons [101] (.smap .sboolean)
        (.cons [102] (.senum [[120], [121]])
        (.cons [103] (.sfixed 2)
        (.cons [104] .sdouble .nil))))))))) = true ∧
    l_resolved_writer_decode
      (.srecord (.cons [97] .sint (.cons [98] .sstring
        (.cons [99] (.sarray .slong)
        (.cons [100] (.sunion (.cons nullName .snull (.cons [105] .sint .nil)))
        (.cons [101] (.smap .sboolean)
        (.cons [102] (.senum [[120], [121]])
        (.cons [103] (.sfixed 2)
        (.cons [104] .sdouble .nil)))))))))
      (encodeValue
        (.vrecord (.cons (.vint 42) (.cons (.vstring [104, 105])
          (.cons (.varray (.cons (.vlong 1) (.cons (.vlong (-1)) .nil)))
          (.cons (.vunion 1 (.vint 7))
          (.cons (.vmap (.cons [107] (.vboolean true) .nil))
          (.cons (.venum 1) (.cons (.vfixed [1, 2])
          (.cons (.vdouble 3) .nil)))))))))) =
      .ok (.vrecord (.cons (.vint 42) (.cons (.vstring [104, 105])
        (.cons (.varray (.cons (.vlong 1) (.cons (.vlong (-1)) .nil)))
        (.cons (.vunion 1 (.vint 7))
        (.cons (.vmap (.cons [107] (.vboolean true) .nil))
        (.cons (.venum 1) (.cons (.vfixed [1, 2])
        (.cons (.vdouble 3) .nil))))))))) :=
  ⟨by decide, (c1_encode_decode_roundtrip _ _ (by decide)).2⟩

/-- C2: `get` on an array value at index `0` or at index `size + 1` returns
`nil` plus the message "Index out of bounds" — a recoverable result, not a
raised error — and leaves the array unchanged. -/
theorem c2_get_index_out_of_bounds (arr : AvroValueList) :
    l_value_get_array arr 0 = (.nilErr "Index out of bounds", arr) ∧
    l_value_get_array arr ((arr.length : Int) + 1) = (.nilErr "Index out of bounds", arr) := by
  constructor
  · simp [l_value_get_array]
  · simp only [l_value_get_array]
    rw [if_pos (by omega)]

/-- C3 counterexample: a union AST table with TWO keys is not rejected —
the code populates the branch named by the first key and reports success,
contradicting "a table literal ... with more than one key is an error". -/
theorem c3_multi_key_union_ast_not_an_error :
    l_value_set_from_ast
      (.sunion (.cons [105] .sint (.cons [115] .sstring .nil)))
      (.vunion 0 (.vint 0))
      (.atable (.cons [105] (.anum 1) (.cons [115] (.astr [120]) .nil))) =
      .ok (.vunion 0 (.vint 1)) := by
  have hfind : AvroFields.findName (.cons [105] .sint (.cons [115] .sstring .nil)) [105] =
      some (0, .sint) := by
    simp [AvroFields.findName]
  have hset : l_value_set_from_ast .sint (defaultValue .sint) (.anum 1) = .ok (.vint 1) := by
    have : wrapSigned 32 1 = 1 := by norm_num [wrapSigned]
    simp [l_value_set_from_ast, l_value_set_scalar, this]
  simp [l_value_set_from_ast, hfind, hset, LuaResult.bindR]

/-- C3 (amended): populating a union from an AST literal: a nil literal
selects the branch named "null" (an error naming the missing branch if the
union has none) and populates it with nil; an empty table literal is an
error; a table literal with one or more entries selects the branch named by
the FIRST key delivered by table iteration and populates it with that key's
value (an unknown name is an error) — entries beyond the first are ignored,
not rejected. -/
theorem c3_union_ast_population (branches : AvroFields) (cur : AvroValue) :
    (∀ d s, branches.findName nullName = some (d, s) →
      l_value_set_from_ast (.sunion branches) cur .anil =
        (l_value_set_from_ast s (defaultValue s) .anil).bindR
          (fun bv => .ok (.vunion d bv))) ∧
    (branches.findName nullName = none →
      l_value_set_from_ast (.sunion branches) cur .anil =
        .luaError ("No " ++ bytesToStr nullName ++ " branch in union")) ∧
    (l_value_set_from_ast (.sunion branches) cur (.atable .nil) =
      .luaError "Union AST must have exactly one element") ∧
    (∀ k a tl d s, branches.findName k = some (d, s) →
      l_value_set_from_ast (.sunion branches) cur (.atable (.cons k a tl)) =
        (l_value_set_from_ast s (defaultValue s) a).bindR
          (fun bv => .ok (.vunion d bv))) ∧
    (∀ k a tl, branches.findName k = none →
      l_value_set_from_ast (.sunion branches) cur (.atable (.cons k a tl)) =
        .luaError ("No " ++ bytesToStr k ++ " branch in union")) := by
  refine ⟨?_, ?_, ?_, ?_, ?_⟩
  · intro d s hf
    have hn := AvroFields.nthSchema_findName branches nullName d s hf
    have hp := populateBranchNil_nthSchema branches d s hn
    simp [l_value_set_from_ast, hf, hp]
  · intro hf
    simp [l_value_set_from_ast, hf]
  · simp [l_value_set_from_ast]
  · intro k a tl d s hf
    simp [l_value_set_from_ast, hf]
  · intro k a tl hf
    simp [l_value_set_from_ast, hf]

/-- Witness for C3 (amended) on a union `[null, int]`: the nil literal
selects branch 0 ("null") and a `⟨"i" = 1⟩` single-entry table selects
branch 1 and stores the int. -/
theorem c3_union_ast_population_witness :
    AvroFields.findName (.cons nullName .snull (.cons [105] .sint .nil)) [105] =
      some (1, .sint) ∧
    l_value_set_from_ast
      (.sunion (.cons nullName .snull (.cons [105] .sint .nil)))
      (.vunion 0 .vnull) (.atable (.cons [105] (.anum 5) .nil)) =
      (l_value_set_from_ast .sint (defaultValue .sint) (.anum 5)).bindR
        (fun bv => .ok (.vunion 1 bv)) :=
  ⟨by decide,
    (c3_union_ast_population (.cons nullName .snull (.cons [105] .sint .nil))
      (.vunion 0 .vnull)).2.2.2.1 [105] (.anum 5) .nil 1 .sint (by decide)⟩

/-- C4 counterexample: on a union value whose active (0-based) branch index
is 0, `discriminant_index` returns 1, not the 0-based index 0. -/
theorem c4_discriminant_index_is_one_based :
    l_value_discriminant_index (.vunion 0 .vnull) = .ok 1 ∧
    LuaResult.ok (1 : Int) ≠ LuaResult.ok (0 : Int) := by
  constructor
  · rfl
  · simp

/-- C4 (amended): a union value carries exactly one active 0-based branch
index; `discriminant_index` returns that index PLUS ONE (the Lua-side
1-based convention), and selecting a branch — by name, or by 1-based
numeric index — resets the value to the branch's default state and returns
the newly active branch as a child view. -/
theorem c4_discriminant_and_branch_selection (b : Nat) (v : AvroValue)
    (branches : AvroFields) :
    l_value_discriminant_index (.vunion b v) = .ok ((b : Int) + 1) ∧
    (∀ name d s, branches.findName name = some (d, s) →
      select_union_branch branches (.kstr name) =
        .ok (.vunion d (defaultValue s), defaultValue s)) ∧
    (∀ i s, 1 ≤ i → branches.nthSchema (i - 1).toNat = some s →
      select_union_branch branches (.knum i) =
        .ok (.vunion (i - 1).toNat (defaultValue s), defaultValue s)) := by
  refine ⟨rfl, ?_, ?_⟩
  · intro name d s hf
    have hn := AvroFields.nthSchema_findName branches name d s hf
    have htn : ((d : Int)).toNat = d := by omega
    simp [select_union_branch, hf, avro_value_set_branch, htn, hn]
  · intro i s h1 hn
    simp only [select_union_branch, avro_value_set_branch]
    rw [if_pos (by omega), hn]

/-- Witness for C4 (amended) on the union `[null, int]`: selecting by name
"i" and by index 2 both land on branch 1 with the int default. -/
theorem c4_discriminant_and_branch_selection_witness :
    l_value_discriminant_index (.vunion 0 .vnull) = .ok 1 ∧
    AvroFields.findName (.cons nullName .snull (.cons [105] .sint .nil)) [105] =
      some (1, .sint) ∧
    select_union_branch (.cons nullName .snull (.cons [105] .sint .nil)) (.kstr [105]) =
      .ok (.vunion 1 (defaultValue .sint), defaultValue .sint) ∧
    select_union_branch (.cons nullName .snull (.cons [105] .sint .nil)) (.knum 2) =
      .ok (.vunion 1 (defaultValue .sint), defaultValue .sint) :=
  ⟨(c4_discriminant_and_branch_selection 0 .vnull .nil).1,
    by decide,
    (c4_discriminant_and_branch_selection 0 .vnull
      (.cons nullName .snull (.cons [105] .sint .nil))).2.1 [105] 1 .sint (by decide),
    (c4_discriminant_and_branch_selection 0 .vnull
      (.cons nullName .snull (.cons [105] .sint .nil))).2.2 2 .sint (by norm_num)
      (by decide)⟩

/-- C5 (code bug): `l_value_copy_from` pushes
`lua_pushboolean(L, avro_value_copy(dest, src))` — the raw return code.
Copying between two same-schema int values succeeds (dest receives 42) yet
the method returns `false`; a mismatched copy fails yet returns `true`.
The spec's `copy(dest, src) -> Result | Error(SchemaMismatch)` intends the
result to indicate success. -/
theorem c5_copy_from_returns_inverted_boolean :
    l_value_copy_from .sint .sint (.vint 0) (.vint 42) = (.vint 42, false) ∧
    l_value_copy_from .sint .sstring (.vint 0) (.vstring [120]) = (.vint 0, true) := by
  constructor <;> rfl

/-- C6: setting a string value to a Lua string `s` and getting it back
returns exactly `s`: the internal NUL terminator added on set (stored
length `len + 1`) is stripped on get (`len - 1` bytes pushed) and never
reaches the wire format, whose encoding of the value is the plain length
prefix followed by `s` itself. -/
theorem c6_string_set_get_roundtrip (s : List Nat) :
    l_value_get_string (l_value_set_string s) = s ∧
    (l_value_set_string s).length = s.length + 1 ∧
    encodeStoredString (l_value_set_string s) = encodeValue (.vstring s) := by
  have htake : (s ++ [0]).take ((s ++ [0]).length - 1) = s := by
    simp [List.take_left]
  refine ⟨?_, by simp [l_value_set_string], ?_⟩
  · simp only [l_value_get_string, l_value_set_string]
    exact htake
  · simp only [encodeStoredString, l_value_set_string, encodeValue]
    rw [htake]
    simp

/-- C7: iterating an array built by appending `N` elements yields exactly
the `N` pairs `(1, e1) … (N, eN)` in order and then stops; and because the
iterator re-reads the array's size on every step, a step taken at the old
end of a grown array yields the newly appended element instead of ending. -/
theorem c7_array_iteration (arr : AvroValueList) :
    iterRun arr arr.length 0 = enumFrom 1 arr ∧
    (iterate_array arr arr.length).1 = none ∧
    (∀ e tl, iterate_array (arr.append (.cons e tl)) arr.length =
      (some (arr.length + 1, e), arr.length + 1)) := by
  refine ⟨?_, ?_, ?_⟩
  · have h := iterRun_enumFrom arr.length arr 0 (by omega)
    rwa [AvroValueList.drop_zero] at h
  · simp only [iterate_array]
    rw [if_pos (by omega)]
  · intro e tl
    simp only [iterate_array]
    rw [if_neg (by rw [AvroValueList.length_append]; simp only [AvroValueList.length]; omega),
      AvroValueList.getAt_append_self]

/-- C8: the byte string produced by `l_value_encode` has length exactly
`l_value_encoded_size` — both the static-buffer path (size ≤ 65536) and the
heap path write `avro_value_sizeof` bytes, which equals the length of the
§6 encoding. -/
theorem c8_encode_length_matches_encoded_size (v : AvroValue) :
    l_value_encode v = .ok (encodeValue v) ∧
    (encodeValue v).length = l_value_encoded_size v := by
  have hlen := sizeofValue_eq_length v
  constructor
  · unfold l_value_encode avro_value_write
    by_cases hsz : sizeofValue v ≤ 65536 <;> simp [hsz, hlen]
  · simp [l_value_encoded_size, hlen]

/-- C9: malformed accesses are recoverable errors with descriptive
messages, never aborts: `size` on a non-array/non-map raises a catchable
Lua error; selecting an unknown union branch name raises one naming the
branch; `add` on a non-map raises one; an out-of-range array index returns
`(nil, message)` and leaves the array unchanged. -/
theorem c9_malformed_access_is_recoverable :
    (∀ v : AvroValue, (∀ items, v ≠ .varray items) → (∀ entries, v ≠ .vmap entries) →
      l_value_size v = .luaError "Can only get size of array or map") ∧
    (∀ (branches : AvroFields) (name : List Nat), branches.findName name = none →
      select_union_branch branches (.kstr name) =
        .luaError ("No " ++ bytesToStr name ++ " branch in union")) ∧
    (∀ (s : AvroSchema) (v : AvroValue) (key : List Nat),
      (∀ entries, v ≠ .vmap entries) →
      l_value_add s v key = .luaError "Can only add to an map") ∧
    (∀ (arr : AvroValueList) (i : Int), (i < 1 ∨ (arr.length : Int) < i) →
      l_value_get_array arr i = (.nilErr "Index out of bounds", arr)) := by
  refine ⟨?_, ?_, ?_, ?_⟩
  · intro v ha hm
    cases v with
    | varray items => exact absurd rfl (ha items)
    | vmap entries => exact absurd rfl (hm entries)
    | _ => rfl
  · intro branches name hf
    simp [select_union_branch, hf]
  · intro s v key hm
    cases v with
    | vmap entries => exact absurd rfl (hm entries)
    | _ => rfl
  · intro arr i hi
    simp only [l_value_get_array]
    rw [if_pos (by omega)]

/-- Witness for C9: size of an int value, lookup of a branch name in an
empty union, add on an int value, get at index 0 of the empty array. -/
theorem c9_malformed_access_is_recoverable_witness :
    l_value_size (.vint 3) = .luaError "Can only get size of array or map" ∧
    select_union_branch .nil (.kstr [122]) =
      .luaError ("No " ++ bytesToStr [122] ++ " branch in union") ∧
    l_value_add .sint (.vint 3) [107] = .luaError "Can only add to an map" ∧
    l_value_get_array .nil 0 = (.nilErr "Index out of bounds", .nil) :=
  ⟨c9_malformed_access_is_recoverable.1 (.vint 3) (fun _ h => AvroValue.noConfusion h)
      (fun _ h => AvroValue.noConfusion h),
    c9_malformed_access_is_recoverable.2.1 .nil [122] (by decide),
    c9_malformed_access_is_recoverable.2.2.1 .sint (.vint 3) [107]
      (fun _ h => AvroValue.noConfusion h),
    c9_malformed_access_is_recoverable.2.2.2 .nil 0 (by norm_num)⟩

/-- C10: `release` is idempotent: the first release clears the interface
and state pointers and the ownership flag; a second release performs no
reference-count decrement and leaves the wrapper in the same released
state. -/
theorem c10_release_idempotent (w : LuaAvroValue) :
    (l_value_release w).1 = ⟨⟨none, none⟩, false⟩ ∧
    l_value_release ((l_value_release w).1) = ((l_value_release w).1, 0) := by
  constructor <;> rfl

end LuaAvro
